import Mathlib

/-!
Verification of the NeilanX rule-based Swedish sentiment engine
(`Neilanx/sentiment_analyzer.py`, class `SwedishSentimentAnalyzer`).

The Python source is embedded shallowly: text is a `String`, tokens are
`List Char` runs rebuilt into `String`s, Python floats are modelled as
exact rationals (every weight in the lexicon is a small decimal), and the
scanning loop of `analyze_sentiment` becomes a structural recursion that
carries the two preceding tokens, mirroring the `words[i-1]` / `words[i-2]`
lookback of the source.
-/

namespace Neilanx

/-! ### Character-level helpers

Python's `\s` class (space, tab, LF, CR, FF, VT).  The source tokenizes with
`str.split()` and collapses whitespace with `re.sub(r'\s+', ' ', ...)`. -/

def isSpaceChar (c : Char) : Bool :=
  c = ' ' || c = '\t' || c = '\n' || c = '\r' || c = '\x0b' || c = '\x0c'

/-- Python `str.lower()` restricted to the character repertoire of the
lexicons: ASCII letters plus the Swedish letters å/ä/ö and é.  Other
characters are unchanged. -/
def pyLower (c : Char) : Char :=
  if 'A' ≤ c ∧ c ≤ 'Z' then Char.ofNat (c.toNat + 32)
  else if c = 'Å' then 'å'
  else if c = 'Ä' then 'ä'
  else if c = 'Ö' then 'ö'
  else if c = 'É' then 'é'
  else c

/-! ### Whitespace tokenization (Python `str.split()`)

`splitWsAux` accumulates the current run of non-space characters (reversed);
empty runs are dropped, exactly as `str.split()` drops empty fields. -/

def splitWsAux : List Char → List Char → List (List Char)
  | [], acc => if acc.isEmpty then [] else [acc.reverse]
  | c :: cs, acc =>
    if isSpaceChar c then
      if acc.isEmpty then splitWsAux cs [] else acc.reverse :: splitWsAux cs []
    else
      splitWsAux cs (c :: acc)

def splitWs (l : List Char) : List (List Char) := splitWsAux l []

/-- `re.sub(r'\s+', ' ', text.strip())`: strip, then collapse every
whitespace run to a single space. -/
def collapseWs (l : List Char) : List Char :=
  List.intercalate [' '] (splitWs l)

/-! ### URL removal

The source removes URLs with
`re.sub(r'http[s]?://(?:[a-zA-Z]|[0-9]|[$-_@.&+]|[!*\\(\\),]|(?:%[0-9a-fA-F][0-9a-fA-F]))+', '', text)`.
The character class is the set below (the range `$-_` spans 0x24–0x5F, which
already contains `%`, so the `%HH` alternative adds nothing).  A match is a
scheme `http://` or `https://` followed by a maximal non-empty run of class
characters. -/

def isUrlChar (c : Char) : Bool :=
  ('a' ≤ c ∧ c ≤ 'z') || ('A' ≤ c ∧ c ≤ 'Z') || ('0' ≤ c ∧ c ≤ '9') ||
  ('$' ≤ c ∧ c ≤ '_') || c = '@' || c = '.' || c = '&' || c = '+' ||
  c = '!' || c = '*' || c = '\\' || c = '(' || c = ')' || c = ','

def startsWithChars : List Char → List Char → Bool
  | [], _ => true
  | _ :: _, [] => false
  | p :: ps, c :: cs => p = c && startsWithChars ps cs

/-- Length of the scheme (`"https://"` or `"http://"`) starting at the head
of `l`, provided at least one URL-class character follows it (the regex
requires a non-empty tail), else `none`. -/
def schemeAt (l : List Char) : Option Nat :=
  if startsWithChars ['h','t','t','p','s',':','/','/'] l
      ∧ isUrlChar ((l.drop 8).headD ' ') then some 8
  else if startsWithChars ['h','t','t','p',':','/','/'] l
      ∧ isUrlChar ((l.drop 7).headD ' ') then some 7
  else none

/-- `ruGo pending inRun cs`: delete `pending` more scheme characters, then
(while `inRun`) delete the greedy run of URL-class characters; otherwise copy
characters, starting a deletion whenever a scheme match begins.  A new match
can never start inside a deleted run because every scheme starts with `h`,
which is itself a URL-class character. -/
def ruGo : Nat → Bool → List Char → List Char
  | _, _, [] => []
  | n+1, run, _ :: cs => ruGo n run cs
  | 0, true, c :: cs =>
    if isUrlChar c then ruGo 0 true cs
    else c :: ruGo 0 false cs
  | 0, false, c :: cs =>
    match schemeAt (c :: cs) with
    | some n => ruGo (n - 1) true cs
    | none => c :: ruGo 0 false cs

def removeUrls (l : List Char) : List Char := ruGo 0 false l

/-! ### Email removal

`re.sub(r'\S+@\S+', '', text)`.  A match never crosses whitespace, and a
maximal non-space run is matched (entirely) exactly when it contains an `@`
that is neither its first nor its last character. -/

def hasInteriorAt (run : List Char) : Bool :=
  ((run.drop 1).dropLast).contains '@'

def reGo : Nat → List Char → List Char
  | _, [] => []
  | n+1, _ :: cs => reGo n cs
  | 0, c :: cs =>
    if isSpaceChar c then c :: reGo 0 cs
    else
      let run := c :: cs.takeWhile (fun d => ¬ isSpaceChar d)
      if hasInteriorAt run then reGo (run.length - 1) cs
      else c :: reGo 0 cs

def removeEmails (l : List Char) : List Char := reGo 0 l

/-- `SwedishSentimentAnalyzer.preprocess_text`: empty in, empty out; else
collapse whitespace, remove URLs, remove e-mail tokens (in source order). -/
def preprocess_text (t : List Char) : List Char :=
  if t.isEmpty then [] else removeEmails (removeUrls (collapseWs t))

/-- `self.preprocess_text(text).lower()` — the `clean_text` local of
`analyze_sentiment`. -/
def clean_text (t : String) : List Char :=
  (preprocess_text t.data).map pyLower

/-! ### The lexicons (`_initialize_model`)

Transcribed verbatim from the source; Python `set` literals become lists
queried with `contains`, the intensifier `dict` becomes an association
list queried with `List.lookup`, floats become exact rationals. -/

def positive_words : List String := [
  -- Swedish positive words
  "bra", "fantastisk", "utmärkt", "perfekt", "underbar", "toppenklass",
  "rekommenderar", "nöjd", "glad", "lysande", "grym", "suverän",
  "strålande", "magnifik", "outstanding", "förtjusande", "härlig",
  "fenomenal", "otrolig", "enastående", "felfri", "imponerande",
  "tillfredsställande", "prisvärd", "effektiv", "snabb", "hjälpsam",
  "vänlig", "professionell", "kvalitet", "värd", "rekommenderar starkt",
  "älskar", "fantastisk service", "bästa", "toppen", "superbra",
  "kämpa", "tacksam", "imponerad", "överträffade förväntningar",
  -- English positive words
  "excellent", "amazing", "great", "good", "perfect", "wonderful",
  "love", "awesome", "best", "brilliant", "outstanding", "fantastic",
  "superb", "marvelous", "exceptional", "impressive", "satisfying",
  "pleased", "delighted", "thrilled", "happy", "satisfied",
  "recommend", "worth", "value", "quality", "fast", "friendly",
  "helpful", "professional", "efficient", "exceeded expectations"]

def negative_words : List String := [
  -- Swedish negative words
  "dålig", "hemsk", "fruktansvärd", "besviken", "sämst", "trasig",
  "problem", "fel", "kass", "usel", "ruskig", "otillfredsställande",
  "besvikelse", "irriterande", "förfärlig", "katastrofal", "värdelös",
  "opålitlig", "långsam", "dyr", "överpris", "svårt", "komplicerat",
  "otrevlig", "oprofessionell", "slarvig", "bristfällig", "misslyckad",
  "ånger", "slöseri", "inte värt", "rekommenderar inte", "undvik",
  "bedrägeri", "bluff", "skandal", "försenad", "förlorad", "skadad",
  -- English negative words
  "bad", "terrible", "awful", "worst", "horrible", "hate",
  "disappointed", "broken", "failed", "poor", "wrong", "disgusting",
  "useless", "waste", "scam", "fraud", "delayed", "damaged",
  "unreliable", "slow", "expensive", "overpriced", "complicated",
  "unprofessional", "rude", "regret", "avoid", "not recommend"]

def negation_words : List String := [
  "inte", "icke", "ej", "aldrig", "ingenting", "inget", "ingen",
  "not", "no", "never", "nothing", "none", "neither", "nor"]

def intensifiers : List (String × ℚ) := [
  ("mycket", 1.5), ("väldigt", 1.5), ("extremt", 2.0), ("otroligt", 2.0),
  ("helt", 1.3), ("verkligen", 1.4), ("absolut", 1.8), ("definitivt", 1.4),
  ("very", 1.5), ("extremely", 2.0), ("absolutely", 1.8), ("really", 1.4),
  ("incredibly", 2.0), ("totally", 1.6), ("completely", 1.7), ("quite", 1.2)]

/-! ### The scan loop of `analyze_sentiment`

`p1` is `words[i-1]` and `p2` is `words[i-2]` (absent near the start of the
list).  The two context checks of the source are independent of each other:
`negated` only consults `negation_words`, `intensity` only `intensifiers`,
each with the `i-1` check taking priority over `i-2`. -/

def inNegation : Option String → Bool
  | some w => negation_words.contains w
  | none => false

def negatedOf (p2 p1 : Option String) : Bool :=
  if inNegation p1 then true
  else if inNegation p2 then true
  else false

def lookupInt : Option String → Option ℚ
  | some w => List.lookup w intensifiers
  | none => none

def intensityOf (p2 p1 : Option String) : ℚ :=
  match lookupInt p1 with
  | some v => v
  | none =>
    match lookupInt p2 with
    | some v => v
    | none => 1.0

/-- Running totals of the loop: `positive_score`, `negative_score`,
`word_count` in the source. -/
structure ScanAcc where
  positive_score : ℚ
  negative_score : ℚ
  word_count : ℕ
deriving DecidableEq

/-- One iteration of the `for i, word in enumerate(words)` body. -/
def stepWord (p2 p1 : Option String) (w : String) (acc : ScanAcc) : ScanAcc :=
  if positive_words.contains w then
    let score := 1.0 * intensityOf p2 p1
    if negatedOf p2 p1 then
      { acc with negative_score := acc.negative_score + score,
                 word_count := acc.word_count + 1 }
    else
      { acc with positive_score := acc.positive_score + score,
                 word_count := acc.word_count + 1 }
  else if negative_words.contains w then
    let score := 1.0 * intensityOf p2 p1
    if negatedOf p2 p1 then
      { acc with positive_score := acc.positive_score + score,
                 word_count := acc.word_count + 1 }
    else
      { acc with negative_score := acc.negative_score + score,
                 word_count := acc.word_count + 1 }
  else acc

def scanWords : Option String → Option String → List String → ScanAcc → ScanAcc
  | _, _, [], acc => acc
  | p2, p1, w :: ws, acc => scanWords p1 (some w) ws (stepWord p2 p1 w acc)

/-! ### `analyze_sentiment` -/

inductive Sentiment
  | positive
  | negative
  | neutral
deriving DecidableEq

/-- The `scores` dict of a full analysis
(`{'positive': ..., 'negative': ..., 'word_count': ...}`). -/
structure RawScores where
  positive : ℚ
  negative : ℚ
  word_count : ℕ
deriving DecidableEq

/-- The result dict of `analyze_sentiment`; `scores = none` models the empty
dict `{}` of the degenerate branches. -/
structure SentimentResult where
  sentiment : Sentiment
  score : ℚ
  confidence : ℚ
  scores : Option RawScores
deriving DecidableEq

/-- `words = clean_text.split()`. -/
def tokensOf (text : String) : List String :=
  (splitWs (clean_text text)).map (fun l => (⟨l⟩ : String))

/-- State of the totals after the scan loop. -/
def scanOf (text : String) : ScanAcc :=
  scanWords none none (tokensOf text) ⟨0, 0, 0⟩

/-- `total_score = positive_score + negative_score`. -/
def totalOf (text : String) : ℚ :=
  (scanOf text).positive_score + (scanOf text).negative_score

/-- `sentiment_score` of the non-degenerate path. -/
def scoreOf (text : String) : ℚ :=
  if totalOf text = 0 then 0.5
  else (scanOf text).positive_score / totalOf text

/-- `confidence` of the non-degenerate path. -/
def confOf (text : String) : ℚ :=
  if totalOf text = 0 then 0.1
  else min (((scanOf text).word_count : ℚ) / ((tokensOf text).length : ℚ)) 1.0

/-- The classification thresholds at the end of `analyze_sentiment`. -/
def classify (s : ℚ) : Sentiment :=
  if s > 0.6 then Sentiment.positive
  else if s < 0.4 then Sentiment.negative
  else Sentiment.neutral

/-- `SwedishSentimentAnalyzer.analyze_sentiment`.  The four returns of the
source in order: empty input, cleaned text shorter than 3 characters, no
sentiment word matched, and the scored path (whose `total_score == 0` guard
is folded into `scoreOf`/`confOf` exactly as in the source). -/
def analyze_sentiment (text : String) : SentimentResult :=
  if text = "" then ⟨Sentiment.neutral, 0.5, 0.0, none⟩
  else if (clean_text text).length < 3 then ⟨Sentiment.neutral, 0.5, 0.1, none⟩
  else if (scanOf text).word_count = 0 then
    ⟨Sentiment.neutral, 0.5, 0.2, some ⟨0, 0, 0⟩⟩
  else
    ⟨classify (scoreOf text), scoreOf text, confOf text,
      some ⟨(scanOf text).positive_score, (scanOf text).negative_score,
            (scanOf text).word_count⟩⟩

/-! ### `extract_keywords` -/

/-- The stop-word set of `extract_keywords`. -/
def stop_words : List String := [
  "och", "i", "att", "det", "som", "på", "de", "av", "för", "till", "är",
  "en", "den", "har", "inte", "var", "om", "med", "kan", "man", "så",
  "från", "ut", "när", "bara", "sina", "där", "nu", "över", "skulle",
  "då", "hade", "upp", "mot", "också", "än", "mycket", "bra", "dålig",
  "dåligt", "bättre", "sämre", "helt", "väldigt", "riktigt"]

/-- Python's `\w` class over the repertoire handled here: ASCII
alphanumerics, underscore, and the non-ASCII letters of the lexicons
(every non-ASCII character below is treated as a word character, which
agrees with Unicode `\w` on the Swedish letters that occur). -/
def isWordChar (c : Char) : Bool :=
  c.isAlphanum || c = '_' || 128 ≤ c.toNat

/-- `re.sub(r'[^\w\s]', ' ', text.lower())`: lowercase, then replace every
character that is neither a word character nor whitespace by a space. -/
def cleanK (t : String) : List Char :=
  (t.data.map pyLower).map (fun c => if isWordChar c || isSpaceChar c then c else ' ')

/-- The `keywords` list: tokens of the cleaned text that are longer than 3
characters and not stop words. -/
def kwTokens (t : String) : List String :=
  (splitWs (cleanK t)).map (fun l => (⟨l⟩ : String))

def kwList (t : String) : List String :=
  (kwTokens t).filter (fun w => 3 < w.length && !stop_words.contains w)

/-- `word_freq[word] = word_freq.get(word, 0) + 1` on an insertion-ordered
association list (a Python dict preserves insertion order). -/
def bump (l : List (String × ℕ)) (w : String) : List (String × ℕ) :=
  if l.any (fun p => p.1 = w) then
    l.map (fun p => if p.1 = w then (p.1, p.2 + 1) else p)
  else l ++ [(w, 1)]

def word_freq (ws : List String) : List (String × ℕ) :=
  ws.foldl bump []

/-- Stable insertion into a list sorted by descending count: the new
element goes in front of the first entry whose count does not exceed its
own, so equal counts keep their original relative order.  This reproduces
Python's stable `sorted(..., key=lambda x: x[1], reverse=True)`. -/
def insertByFreq (x : String × ℕ) : List (String × ℕ) → List (String × ℕ)
  | [] => [x]
  | y :: ys => if y.2 ≤ x.2 then x :: y :: ys else y :: insertByFreq x ys

def sortByFreqDesc : List (String × ℕ) → List (String × ℕ)
  | [] => []
  | x :: xs => insertByFreq x (sortByFreqDesc xs)

/-- Python `l[:n]`, including the negative-index case: `l[:-k]` drops the
last `k` elements. -/
def pySlice (l : List α) (n : ℤ) : List α :=
  if 0 ≤ n then l.take n.toNat else l.take (l.length - (-n).toNat)

/-- `SwedishSentimentAnalyzer.extract_keywords`. -/
def extract_keywords (text : String) (max_keywords : ℤ := 10) : List String :=
  if text = "" then []
  else (pySlice (sortByFreqDesc (word_freq (kwList text))) max_keywords).map
    (fun p => p.1)

/-- `SwedishSentimentAnalyzer.batch_analyze`: one result per input text in
order, each result being the sentiment analysis with the keyword list
attached. -/
def batch_analyze : List String → List (SentimentResult × List String)
  | [] => []
  | t :: ts => (analyze_sentiment t, extract_keywords t 10) :: batch_analyze ts

/-! ## Lemmas about the scan loop -/

lemma lookup_mem {α β : Type} [BEq α] [LawfulBEq α] {l : List (α × β)} {k : α} {v : β}
    (h : List.lookup k l = some v) : (k, v) ∈ l := by
  induction l with
  | nil => simp [List.lookup] at h
  | cons p ps ih =>
    obtain ⟨a, b⟩ := p
    rw [List.lookup] at h
    cases hk : k == a with
    | true =>
      rw [hk] at h
      simp only [Option.some.injEq] at h
      have hk2 : k = a := eq_of_beq hk
      rw [hk2, ← h]
      exact List.mem_cons_self _ _
    | false =>
      rw [hk] at h
      exact List.mem_cons_of_mem _ (ih h)

lemma intensifier_value_ge_one : ∀ p ∈ intensifiers, (1 : ℚ) ≤ p.2 := by
  with_unfolding_all decide

lemma one_le_intensityOf (p2 p1 : Option String) : (1 : ℚ) ≤ intensityOf p2 p1 := by
  unfold intensityOf
  rcases h1 : lookupInt p1 with _ | v
  · rcases h2 : lookupInt p2 with _ | v
    · norm_num
    · rcases p2 with _ | w
      · simp [lookupInt] at h2
      · exact intensifier_value_ge_one _ (lookup_mem (show List.lookup w intensifiers = some v from h2))
  · rcases p1 with _ | w
    · simp [lookupInt] at h1
    · exact intensifier_value_ge_one _ (lookup_mem (show List.lookup w intensifiers = some v from h1))

/-- Whether the loop body counts the token (independent of context). -/
def matchedWord (w : String) : Bool :=
  positive_words.contains w || negative_words.contains w

lemma stepWord_count (p2 p1 : Option String) (w : String) (acc : ScanAcc) :
    (stepWord p2 p1 w acc).word_count
      = acc.word_count + (if matchedWord w then 1 else 0) := by
  unfold stepWord matchedWord
  cases hp : positive_words.contains w <;>
    cases hn : negative_words.contains w <;>
      cases hneg : negatedOf p2 p1 <;>
        simp [hp, hn, hneg]

lemma scanWords_count :
    ∀ (ws : List String) (p2 p1 : Option String) (acc : ScanAcc),
      (scanWords p2 p1 ws acc).word_count = acc.word_count + ws.countP matchedWord := by
  intro ws
  induction ws with
  | nil => intro p2 p1 acc; simp [scanWords]
  | cons w ws ih =>
    intro p2 p1 acc
    rw [scanWords, ih, stepWord_count, List.countP_cons]
    omega

lemma stepWord_sum_ge (p2 p1 : Option String) (w : String) (acc : ScanAcc)
    (h : (acc.word_count : ℚ) ≤ acc.positive_score + acc.negative_score) :
    ((stepWord p2 p1 w acc).word_count : ℚ)
      ≤ (stepWord p2 p1 w acc).positive_score + (stepWord p2 p1 w acc).negative_score := by
  have hι := one_le_intensityOf p2 p1
  unfold stepWord
  cases hp : positive_words.contains w <;>
    cases hn : negative_words.contains w <;>
      cases hneg : negatedOf p2 p1 <;>
        simp only [hp, hn, hneg, Bool.false_eq_true, if_true, if_false] <;>
          first
            | exact h
            | (push_cast; linarith)

lemma scanWords_sum_ge :
    ∀ (ws : List String) (p2 p1 : Option String) (acc : ScanAcc),
      (acc.word_count : ℚ) ≤ acc.positive_score + acc.negative_score →
      ((scanWords p2 p1 ws acc).word_count : ℚ)
        ≤ (scanWords p2 p1 ws acc).positive_score + (scanWords p2 p1 ws acc).negative_score := by
  intro ws
  induction ws with
  | nil => intro p2 p1 acc h; exact h
  | cons w ws ih =>
    intro p2 p1 acc h
    rw [scanWords]
    exact ih _ _ _ (stepWord_sum_ge p2 p1 w acc h)

lemma scanOf_sum_ge (text : String) :
    ((scanOf text).word_count : ℚ) ≤ (scanOf text).positive_score + (scanOf text).negative_score := by
  have : ((0 : ℕ) : ℚ) ≤ (0 : ℚ) + 0 := by norm_num
  exact scanWords_sum_ge _ none none ⟨0, 0, 0⟩ (by push_cast; norm_num)

lemma totalOf_pos_of_matched (text : String) (h : 0 < (scanOf text).word_count) :
    0 < totalOf text := by
  have h1 := scanOf_sum_ge text
  have h2 : (0 : ℚ) < ((scanOf text).word_count : ℚ) := by exact_mod_cast h
  unfold totalOf
  linarith

/-! ## Lemmas about `extract_keywords` -/

/-- Index of the first occurrence of `w` (length of the list when absent). -/
def firstIdx (w : String) : List String → ℕ
  | [] => 0
  | v :: vs => if v = w then 0 else firstIdx w vs + 1

lemma firstIdx_append_left (w : String) (l l' : List String) (h : w ∈ l) :
    firstIdx w (l ++ l') = firstIdx w l := by
  induction l with
  | nil => simp at h
  | cons v vs ih =>
    by_cases hv : v = w
    · simp [firstIdx, hv]
    · rcases List.mem_cons.1 h with he | h2
      · exact absurd he.symm hv
      · simp [firstIdx, hv, ih h2]

lemma firstIdx_append_right (w : String) (l l' : List String) (h : w ∉ l) :
    firstIdx w (l ++ l') = l.length + firstIdx w l' := by
  induction l with
  | nil => simp
  | cons v vs ih =>
    have hv : ¬ v = w := fun he => h (he ▸ List.mem_cons_self v vs)
    have h2 : w ∉ vs := fun hm => h (List.mem_cons_of_mem _ hm)
    simp only [List.cons_append, List.append_eq, firstIdx, hv, if_false,
      ih h2, List.length_cons]
    omega

lemma firstIdx_lt_length (w : String) (l : List String) (h : w ∈ l) :
    firstIdx w l < l.length := by
  induction l with
  | nil => simp at h
  | cons v vs ih =>
    by_cases hv : v = w
    · simp [firstIdx, hv]
    · rcases List.mem_cons.1 h with he | h2
      · exact absurd he.symm hv
      · simp only [firstIdx, hv, if_false, List.length_cons]
        have := ih h2
        omega

/-- The full invariant of the frequency dict built by `word_freq`: every
entry's key occurs in the input and its value is that key's multiplicity,
every input word has an entry, keys are pairwise distinct, and entries are
ordered by first occurrence of their key. -/
lemma word_freq_inv (ws : List String) :
    (∀ p ∈ word_freq ws, p.1 ∈ ws ∧ p.2 = ws.count p.1)
    ∧ (∀ w ∈ ws, ∃ n, (w, n) ∈ word_freq ws)
    ∧ (word_freq ws).Pairwise (fun p q => p.1 ≠ q.1)
    ∧ (word_freq ws).Pairwise (fun p q => firstIdx p.1 ws < firstIdx q.1 ws) := by
  induction ws using List.reverseRecOn with
  | nil => simp [word_freq]
  | append_singleton ws w ih =>
    obtain ⟨h1, h2, h3, h4⟩ := ih
    have hwf : word_freq (ws ++ [w]) = bump (word_freq ws) w := by
      simp [word_freq, List.foldl_append]
    cases hany : (word_freq ws).any (fun p => p.1 = w) with
    | true =>
      have hb : word_freq (ws ++ [w])
          = (word_freq ws).map (fun p => if p.1 = w then (p.1, p.2 + 1) else p) := by
        rw [hwf]
        unfold bump
        rw [hany]
        simp
      have hw_in : w ∈ ws := by
        simp only [List.any_eq_true, decide_eq_true_eq] at hany
        obtain ⟨p, hp, hpe⟩ := hany
        exact hpe ▸ (h1 p hp).1
      have hfst : ∀ p : String × ℕ,
          ((if p.1 = w then (p.1, p.2 + 1) else p) : String × ℕ).1 = p.1 := by
        intro p
        by_cases hc : p.1 = w <;> simp [hc]
      refine ⟨?_, ?_, ?_, ?_⟩
      · intro p' hp'
        rw [hb] at hp'
        obtain ⟨⟨a, n⟩, hp, hpe⟩ := List.mem_map.1 hp'
        obtain ⟨hm, hc⟩ := h1 ⟨a, n⟩ hp
        simp only at hm hc
        by_cases haw : a = w
        · subst haw
          rw [if_pos rfl] at hpe
          subst hpe
          refine ⟨List.mem_append_left _ hm, ?_⟩
          show n + 1 = (ws ++ [a]).count a
          rw [List.count_append, List.count_singleton]
          simp only [beq_self_eq_true, if_true]
          omega
        · rw [if_neg haw] at hpe
          subst hpe
          refine ⟨List.mem_append_left _ hm, ?_⟩
          show n = (ws ++ [w]).count a
          rw [List.count_append, List.count_singleton,
            if_neg (fun h => haw (eq_of_beq h).symm)]
          omega
      · intro u hu
        rcases List.mem_append.1 hu with hu | hu
        · obtain ⟨n, hn⟩ := h2 u hu
          rw [hb]
          by_cases huw : u = w
          · subst huw
            exact ⟨n + 1, List.mem_map.2 ⟨⟨u, n⟩, hn, by rw [if_pos rfl]⟩⟩
          · exact ⟨n, List.mem_map.2 ⟨⟨u, n⟩, hn, by rw [if_neg huw]⟩⟩
        · rw [List.mem_singleton] at hu
          subst hu
          obtain ⟨n, hn⟩ := h2 u hw_in
          rw [hb]
          exact ⟨n + 1, List.mem_map.2 ⟨⟨u, n⟩, hn, by rw [if_pos rfl]⟩⟩
      · rw [hb]
        refine List.pairwise_map.2 ?_
        refine h3.imp ?_
        intro p q hne hcon
        rw [hfst, hfst] at hcon
        exact hne hcon
      · rw [hb]
        refine List.pairwise_map.2 ?_
        refine h4.imp_of_mem ?_
        intro p q hp hq hlt
        rw [hfst, hfst,
          firstIdx_append_left _ _ _ (h1 p hp).1,
          firstIdx_append_left _ _ _ (h1 q hq).1]
        exact hlt
    | false =>
      have hb : word_freq (ws ++ [w]) = word_freq ws ++ [(w, 1)] := by
        rw [hwf]
        unfold bump
        rw [hany]
        simp
      have hnew : ∀ p ∈ word_freq ws, p.1 ≠ w := by
        simp only [List.any_eq_false, decide_eq_true_eq] at hany
        exact hany
      have hw_out : w ∉ ws := by
        intro hmem
        obtain ⟨n, hn⟩ := h2 w hmem
        exact hnew ⟨w, n⟩ hn rfl
      refine ⟨?_, ?_, ?_, ?_⟩
      · intro p hp
        rw [hb] at hp
        rcases List.mem_append.1 hp with hp | hp
        · obtain ⟨hm, hc⟩ := h1 p hp
          refine ⟨List.mem_append_left _ hm, ?_⟩
          rw [List.count_append, List.count_singleton,
            if_neg (fun h => hnew p hp (eq_of_beq h).symm)]
          omega
        · rw [List.mem_singleton] at hp
          subst hp
          refine ⟨List.mem_append_right _ (List.mem_singleton.2 rfl), ?_⟩
          show (1 : ℕ) = (ws ++ [w]).count w
          rw [List.count_append, List.count_eq_zero.2 hw_out, List.count_singleton]
          simp
      · intro u hu
        rcases List.mem_append.1 hu with hu | hu
        · obtain ⟨n, hn⟩ := h2 u hu
          exact ⟨n, by rw [hb]; exact List.mem_append_left _ hn⟩
        · rw [List.mem_singleton] at hu
          subst hu
          exact ⟨1, by rw [hb]; exact List.mem_append_right _ (List.mem_singleton.2 rfl)⟩
      · rw [hb]
        refine List.pairwise_append.2 ⟨h3, by simp, ?_⟩
        intro p hp q hq
        rw [List.mem_singleton] at hq
        subst hq
        exact hnew p hp
      · rw [hb]
        refine List.pairwise_append.2 ⟨?_, by simp, ?_⟩
        · refine h4.imp_of_mem ?_
          intro p q hp hq hlt
          rw [firstIdx_append_left _ _ _ (h1 p hp).1,
            firstIdx_append_left _ _ _ (h1 q hq).1]
          exact hlt
        · intro p hp q hq
          rw [List.mem_singleton] at hq
          subst hq
          show firstIdx p.1 (ws ++ [w]) < firstIdx w (ws ++ [w])
          rw [firstIdx_append_left _ _ _ (h1 p hp).1,
            firstIdx_append_right _ _ _ hw_out]
          have h5 : firstIdx w [w] = 0 := by simp [firstIdx]
          have h6 := firstIdx_lt_length p.1 ws (h1 p hp).1
          omega

lemma insertByFreq_perm (x : String × ℕ) (l : List (String × ℕ)) :
    (insertByFreq x l).Perm (x :: l) := by
  induction l with
  | nil => exact List.Perm.refl _
  | cons y ys ih =>
    unfold insertByFreq
    split_ifs with h
    · exact List.Perm.refl _
    · exact (ih.cons y).trans (List.Perm.swap x y ys)

lemma sortByFreqDesc_perm (l : List (String × ℕ)) : (sortByFreqDesc l).Perm l := by
  induction l with
  | nil => exact List.Perm.refl _
  | cons x xs ih =>
    show (insertByFreq x (sortByFreqDesc xs)).Perm (x :: xs)
    exact (insertByFreq_perm x (sortByFreqDesc xs)).trans (ih.cons x)

/-- Inserting below every strictly larger count and above the first equal or
smaller one preserves sortedness with the stability relation `S`. -/
lemma insertByFreq_pairwise (S : (String × ℕ) → (String × ℕ) → Prop)
    (x : String × ℕ) :
    ∀ m : List (String × ℕ),
      m.Pairwise (fun p q => q.2 < p.2 ∨ (q.2 = p.2 ∧ S p q)) →
      (∀ y ∈ m, S x y) →
      (insertByFreq x m).Pairwise (fun p q => q.2 < p.2 ∨ (q.2 = p.2 ∧ S p q)) := by
  intro m
  induction m with
  | nil =>
    intro _ _
    exact List.pairwise_singleton _ _
  | cons y ys ih =>
    intro hm hx
    rw [List.pairwise_cons] at hm
    obtain ⟨hy, hys⟩ := hm
    unfold insertByFreq
    split_ifs with h
    · refine List.pairwise_cons.2 ⟨?_, List.pairwise_cons.2 ⟨hy, hys⟩⟩
      intro z hz
      rcases List.mem_cons.1 hz with rfl | hz2
      · rcases lt_or_eq_of_le h with h2 | h2
        · exact Or.inl h2
        · exact Or.inr ⟨h2, hx z (List.mem_cons_self _ _)⟩
      · rcases hy z hz2 with h3 | ⟨h3, _⟩
        · exact Or.inl (lt_of_lt_of_le h3 h)
        · rcases lt_or_eq_of_le h with h5 | h5
          · exact Or.inl (by omega)
          · exact Or.inr ⟨h3.trans h5, hx z (List.mem_cons_of_mem _ hz2)⟩
    · refine List.pairwise_cons.2
        ⟨?_, ih hys (fun z hz => hx z (List.mem_cons_of_mem _ hz))⟩
      intro z hz
      have hz2 := (insertByFreq_perm x ys).mem_iff.1 hz
      rcases List.mem_cons.1 hz2 with rfl | hz3
      · exact Or.inl (not_le.1 h)
      · exact hy z hz3

/-- The stable sort of a list ordered by `S` is ordered by descending count
with ties still ordered by `S`: this is Python's stable
`sorted(..., key=lambda x: x[1], reverse=True)`. -/
lemma sortByFreqDesc_pairwise (S : (String × ℕ) → (String × ℕ) → Prop) :
    ∀ l : List (String × ℕ), l.Pairwise S →
      (sortByFreqDesc l).Pairwise (fun p q => q.2 < p.2 ∨ (q.2 = p.2 ∧ S p q)) := by
  intro l
  induction l with
  | nil =>
    intro _
    simp [sortByFreqDesc]
  | cons x xs ih =>
    intro hl
    rw [List.pairwise_cons] at hl
    obtain ⟨hx, hxs⟩ := hl
    show (insertByFreq x (sortByFreqDesc xs)).Pairwise _
    exact insertByFreq_pairwise S x _ (ih hxs)
      (fun y hy => hx y ((sortByFreqDesc_perm xs).mem_iff.1 hy))

lemma pySlice_sublist (l : List (String × ℕ)) (k : ℤ) :
    (pySlice l k).Sublist l := by
  unfold pySlice
  split_ifs <;> exact List.take_sublist _ _

/-! ## Claim theorems -/

/-- C2: for every input text, the sentiment label returned by
`analyze_sentiment` is determined from the returned score by the
thresholds: score > 0.6 gives positive, score < 0.4 gives negative, and
every score in the closed interval [0.4, 0.6] (both ends included) gives
neutral. -/
theorem analyze_threshold_classification (text : String) :
    (analyze_sentiment text).sentiment =
      (if (analyze_sentiment text).score > 0.6 then Sentiment.positive
       else if (analyze_sentiment text).score < 0.4 then Sentiment.negative
       else Sentiment.neutral) := by
  have hs : (analyze_sentiment text).sentiment = classify ((analyze_sentiment text).score) := by
    unfold analyze_sentiment
    split_ifs <;> with_unfolding_all rfl
  rw [hs]
  rfl

/-- C4: an intensifier before a sentiment word amplifies without flipping:
`analyze_sentiment "mycket bra"` is positive and its positive weight is
exactly 1.5 times the positive weight of `analyze_sentiment "bra"`. -/
theorem intensifier_amplifies :
    (analyze_sentiment "mycket bra").sentiment = Sentiment.positive
    ∧ (analyze_sentiment "mycket bra").scores.map RawScores.positive
        = (analyze_sentiment "bra").scores.map (fun s => 1.5 * s.positive) := by
  with_unfolding_all decide

/-- C9: the `total_score == 0` fallback of `analyze_sentiment` is
unreachable: whenever the scan ends with a positive matched-word count, the
positive and negative weights sum to something strictly positive (each
matched word contributes `1.0 *` an intensity that is at least 1). -/
theorem scan_total_pos_of_matched (text : String)
    (h : 0 < (scanOf text).word_count) :
    0 < totalOf text ∧ totalOf text ≠ 0 := by
  have h1 := scanOf_sum_ge text
  have h2 : (0 : ℚ) < ((scanOf text).word_count : ℚ) := by exact_mod_cast h
  have h3 : 0 < totalOf text := by unfold totalOf; linarith
  exact ⟨h3, ne_of_gt h3⟩

theorem scan_total_pos_of_matched_witness :
    0 < (scanOf "bra").word_count
    ∧ (0 < totalOf "bra" ∧ totalOf "bra" ≠ 0) :=
  ⟨by with_unfolding_all decide,
    scan_total_pos_of_matched "bra" (by with_unfolding_all decide)⟩

/-- C1: for every input whose cleaned lowercase form has length at least 3
and in which some token is a positive or negative word, the returned score
is `positiveWeight / (positiveWeight + negativeWeight)` and the returned
confidence is `min (matchedWordCount / tokenCount) 1`; in particular
`analyze_sentiment "bra bra dålig"` has score 2/3 and is positive. -/
theorem analyze_score_formula (text : String)
    (hlen : 3 ≤ (clean_text text).length)
    (hmatch : ∃ w ∈ tokensOf text,
        positive_words.contains w = true ∨ negative_words.contains w = true) :
    (analyze_sentiment text).score
      = (scanOf text).positive_score
          / ((scanOf text).positive_score + (scanOf text).negative_score)
    ∧ (analyze_sentiment text).confidence
      = min (((scanOf text).word_count : ℚ) / ((tokensOf text).length : ℚ)) 1.0
    ∧ (analyze_sentiment "bra bra dålig").score = 2/3
    ∧ (analyze_sentiment "bra bra dålig").sentiment = Sentiment.positive := by
  have hne : text ≠ "" := by
    intro he
    rw [he] at hlen
    rw [show clean_text "" = [] from rfl] at hlen
    simp at hlen
  have hcnt : (scanOf text).word_count ≠ 0 := by
    have hc : (scanOf text).word_count
        = (⟨0, 0, 0⟩ : ScanAcc).word_count + (tokensOf text).countP matchedWord :=
      scanWords_count (tokensOf text) none none ⟨0, 0, 0⟩
    obtain ⟨w, hwmem, hw⟩ := hmatch
    have hpos : 0 < (tokensOf text).countP matchedWord := by
      refine List.countP_pos_iff.2 ⟨w, hwmem, ?_⟩
      unfold matchedWord
      rcases hw with hw | hw <;> rw [hw] <;> simp
    omega
  have htot : totalOf text ≠ 0 :=
    ne_of_gt (totalOf_pos_of_matched text (Nat.pos_of_ne_zero hcnt))
  refine ⟨?_, ?_, ?_, ?_⟩
  · unfold analyze_sentiment
    rw [if_neg hne, if_neg (by omega : ¬ (clean_text text).length < 3), if_neg hcnt]
    show scoreOf text = _
    unfold scoreOf
    rw [if_neg htot]
    rfl
  · unfold analyze_sentiment
    rw [if_neg hne, if_neg (by omega : ¬ (clean_text text).length < 3), if_neg hcnt]
    show confOf text = _
    unfold confOf
    rw [if_neg htot]
  · with_unfolding_all decide
  · with_unfolding_all decide

theorem analyze_score_formula_witness :
    3 ≤ (clean_text "bra bra dålig").length
    ∧ (∃ w ∈ tokensOf "bra bra dålig",
        positive_words.contains w = true ∨ negative_words.contains w = true)
    ∧ ((analyze_sentiment "bra bra dålig").score
        = (scanOf "bra bra dålig").positive_score
            / ((scanOf "bra bra dålig").positive_score
                + (scanOf "bra bra dålig").negative_score)
      ∧ (analyze_sentiment "bra bra dålig").confidence
        = min (((scanOf "bra bra dålig").word_count : ℚ)
            / ((tokensOf "bra bra dålig").length : ℚ)) 1.0
      ∧ (analyze_sentiment "bra bra dålig").score = 2/3
      ∧ (analyze_sentiment "bra bra dålig").sentiment = Sentiment.positive) :=
  ⟨by with_unfolding_all decide, by with_unfolding_all decide,
    analyze_score_formula "bra bra dålig"
      (by with_unfolding_all decide) (by with_unfolding_all decide)⟩

/-- C3: a positive word whose context is negated contributes its weight to
the negative total instead of the positive one, and consequently
`analyze_sentiment "inte bra"` is negative with score 0, negative weight 1
and positive weight 0 (confidence is 1/2: one matched word of two tokens). -/
theorem negation_flips_positive (p2 p1 : Option String) (w : String) (acc : ScanAcc)
    (hw : positive_words.contains w = true) (hneg : negatedOf p2 p1 = true) :
    ((stepWord p2 p1 w acc).negative_score
        = acc.negative_score + 1.0 * intensityOf p2 p1
      ∧ (stepWord p2 p1 w acc).positive_score = acc.positive_score
      ∧ (stepWord p2 p1 w acc).word_count = acc.word_count + 1)
    ∧ analyze_sentiment "inte bra"
        = ⟨Sentiment.negative, 0, 1/2, some ⟨0, 1, 1⟩⟩ := by
  constructor
  · unfold stepWord
    rw [hw, hneg]
    simp
  · with_unfolding_all decide

theorem negation_flips_positive_witness :
    positive_words.contains "bra" = true
    ∧ negatedOf none (some "inte") = true
    ∧ (((stepWord none (some "inte") "bra" ⟨0, 0, 0⟩).negative_score
          = (0 : ℚ) + 1.0 * intensityOf none (some "inte")
        ∧ (stepWord none (some "inte") "bra" ⟨0, 0, 0⟩).positive_score = 0
        ∧ (stepWord none (some "inte") "bra" ⟨0, 0, 0⟩).word_count = 0 + 1)
      ∧ analyze_sentiment "inte bra"
          = ⟨Sentiment.negative, 0, 1/2, some ⟨0, 1, 1⟩⟩) :=
  ⟨by with_unfolding_all decide, by with_unfolding_all decide,
    negation_flips_positive none (some "inte") "bra" ⟨0, 0, 0⟩
      (by with_unfolding_all decide) (by with_unfolding_all decide)⟩

/-- C5: the three degenerate input classes each yield their documented
neutral default: empty input gives confidence 0 (no tokenization), a
non-empty input whose cleaned form is shorter than 3 characters gives
confidence 0.1, and an input whose tokens match no sentiment word gives
confidence 0.2 with all raw totals zero. -/
theorem degenerate_neutral_defaults (t u : String)
    (ht1 : t ≠ "") (ht2 : (clean_text t).length < 3)
    (hu1 : 3 ≤ (clean_text u).length)
    (hu2 : ∀ w ∈ tokensOf u,
        positive_words.contains w = false ∧ negative_words.contains w = false) :
    analyze_sentiment "" = ⟨Sentiment.neutral, 0.5, 0.0, none⟩
    ∧ analyze_sentiment t = ⟨Sentiment.neutral, 0.5, 0.1, none⟩
    ∧ analyze_sentiment u = ⟨Sentiment.neutral, 0.5, 0.2, some ⟨0, 0, 0⟩⟩ := by
  have hu0 : u ≠ "" := by
    intro he
    rw [he, show clean_text "" = [] from rfl] at hu1
    simp at hu1
  have hcnt : (scanOf u).word_count = 0 := by
    have hc : (scanOf u).word_count = 0 + (tokensOf u).countP matchedWord :=
      scanWords_count (tokensOf u) none none ⟨0, 0, 0⟩
    have hz : (tokensOf u).countP matchedWord = 0 := by
      refine List.countP_eq_zero.2 ?_
      intro w hwmem
      obtain ⟨hp, hn⟩ := hu2 w hwmem
      unfold matchedWord
      rw [hp, hn]
      simp
    omega
  refine ⟨rfl, ?_, ?_⟩
  · unfold analyze_sentiment
    rw [if_neg ht1, if_pos ht2]
  · unfold analyze_sentiment
    rw [if_neg hu0, if_neg (by omega : ¬ (clean_text u).length < 3), if_pos hcnt]

theorem degenerate_neutral_defaults_witness :
    ("ok" : String) ≠ ""
    ∧ (clean_text "ok").length < 3
    ∧ 3 ≤ (clean_text "hej hopp").length
    ∧ (∀ w ∈ tokensOf "hej hopp",
        positive_words.contains w = false ∧ negative_words.contains w = false)
    ∧ (analyze_sentiment "" = ⟨Sentiment.neutral, 0.5, 0.0, none⟩
      ∧ analyze_sentiment "ok" = ⟨Sentiment.neutral, 0.5, 0.1, none⟩
      ∧ analyze_sentiment "hej hopp" = ⟨Sentiment.neutral, 0.5, 0.2, some ⟨0, 0, 0⟩⟩) :=
  ⟨by with_unfolding_all decide, by with_unfolding_all decide,
    by with_unfolding_all decide, by with_unfolding_all decide,
    degenerate_neutral_defaults "ok" "hej hopp"
      (by with_unfolding_all decide) (by with_unfolding_all decide)
      (by with_unfolding_all decide) (by with_unfolding_all decide)⟩

/-- C8: the negation flag and the intensity multiplier are computed
independently over the two preceding tokens, in either arrangement: with a
negation word at `i-1` (that is no intensifier) and an intensifier at
`i-2`, or vice versa with an intensifier at `i-1` and a negation word (that
is no negation word at `i-1`'s slot, i.e. the intensifier is not itself a
negation word) at `i-2`, a positive word is simultaneously negated and
amplified by that intensifier's factor; in particular in both
`analyze_sentiment "mycket inte bra"` and
`analyze_sentiment "inte mycket bra"` the word `bra` contributes 1.5 to
the negative weight. -/
theorem negation_intensifier_independent (n m w : String) (v : ℚ) (acc : ScanAcc)
    (hn : negation_words.contains n = true)
    (hnI : List.lookup n intensifiers = none)
    (hm : List.lookup m intensifiers = some v)
    (hmN : negation_words.contains m = false)
    (hw : positive_words.contains w = true) :
    (negatedOf (some m) (some n) = true
      ∧ intensityOf (some m) (some n) = v
      ∧ (stepWord (some m) (some n) w acc).negative_score
          = acc.negative_score + 1.0 * v
      ∧ (stepWord (some m) (some n) w acc).positive_score = acc.positive_score)
    ∧ (negatedOf (some n) (some m) = true
      ∧ intensityOf (some n) (some m) = v
      ∧ (stepWord (some n) (some m) w acc).negative_score
          = acc.negative_score + 1.0 * v
      ∧ (stepWord (some n) (some m) w acc).positive_score = acc.positive_score)
    ∧ analyze_sentiment "mycket inte bra"
        = ⟨Sentiment.negative, 0, 1/3, some ⟨0, 1.5, 1⟩⟩
    ∧ analyze_sentiment "inte mycket bra"
        = ⟨Sentiment.negative, 0, 1/3, some ⟨0, 1.5, 1⟩⟩ := by
  have hneg : negatedOf (some m) (some n) = true := by
    simp only [negatedOf, inNegation, hn]
    rfl
  have hint : intensityOf (some m) (some n) = v := by
    unfold intensityOf
    rw [show lookupInt (some n) = List.lookup n intensifiers from rfl,
        show lookupInt (some m) = List.lookup m intensifiers from rfl, hnI, hm]
  have hneg' : negatedOf (some n) (some m) = true := by
    simp only [negatedOf, inNegation, hmN, hn]
    rfl
  have hint' : intensityOf (some n) (some m) = v := by
    unfold intensityOf
    rw [show lookupInt (some m) = List.lookup m intensifiers from rfl, hm]
  refine ⟨⟨hneg, hint, ?_, ?_⟩, ⟨hneg', hint', ?_, ?_⟩,
    by with_unfolding_all decide, by with_unfolding_all decide⟩
  · unfold stepWord
    rw [hw, hneg, hint]
    simp
  · unfold stepWord
    rw [hw, hneg]
    simp
  · unfold stepWord
    rw [hw, hneg', hint']
    simp
  · unfold stepWord
    rw [hw, hneg']
    simp

theorem negation_intensifier_independent_witness :
    negation_words.contains "inte" = true
    ∧ List.lookup "inte" intensifiers = none
    ∧ List.lookup "mycket" intensifiers = some 1.5
    ∧ negation_words.contains "mycket" = false
    ∧ positive_words.contains "bra" = true
    ∧ ((negatedOf (some "mycket") (some "inte") = true
        ∧ intensityOf (some "mycket") (some "inte") = 1.5
        ∧ (stepWord (some "mycket") (some "inte") "bra" ⟨0, 0, 0⟩).negative_score
            = (0 : ℚ) + 1.0 * 1.5
        ∧ (stepWord (some "mycket") (some "inte") "bra" ⟨0, 0, 0⟩).positive_score = 0)
      ∧ (negatedOf (some "inte") (some "mycket") = true
        ∧ intensityOf (some "inte") (some "mycket") = 1.5
        ∧ (stepWord (some "inte") (some "mycket") "bra" ⟨0, 0, 0⟩).negative_score
            = (0 : ℚ) + 1.0 * 1.5
        ∧ (stepWord (some "inte") (some "mycket") "bra" ⟨0, 0, 0⟩).positive_score = 0)
      ∧ analyze_sentiment "mycket inte bra"
          = ⟨Sentiment.negative, 0, 1/3, some ⟨0, 1.5, 1⟩⟩
      ∧ analyze_sentiment "inte mycket bra"
          = ⟨Sentiment.negative, 0, 1/3, some ⟨0, 1.5, 1⟩⟩) :=
  ⟨by with_unfolding_all decide, by with_unfolding_all decide,
    by with_unfolding_all decide, by with_unfolding_all decide,
    by with_unfolding_all decide,
    negation_intensifier_independent "inte" "mycket" "bra" 1.5 ⟨0, 0, 0⟩
      (by with_unfolding_all decide) (by with_unfolding_all decide)
      (by with_unfolding_all decide) (by with_unfolding_all decide)
      (by with_unfolding_all decide)⟩

/-- C7: `batch_analyze` returns one result per input text in the same
order, the i-th entry being the sentiment analysis of the i-th text paired
with its extracted keywords; a degenerate text (such as `""`) yields its
own neutral result in place without affecting the rest of the batch. -/
theorem batch_analyze_pointwise (texts : List String) :
    (batch_analyze texts).length = texts.length
    ∧ (∀ i : ℕ, (batch_analyze texts)[i]? =
        (texts[i]?).map (fun t => (analyze_sentiment t, extract_keywords t 10)))
    ∧ (batch_analyze ["bra", "", "dålig"])[1]?
        = some (⟨Sentiment.neutral, 0.5, 0.0, none⟩, []) := by
  refine ⟨?_, ?_, ?_⟩
  · induction texts with
    | nil => rfl
    | cons t ts ih => simp [batch_analyze, ih]
  · intro i
    induction texts generalizing i with
    | nil => simp [batch_analyze]
    | cons t ts ih =>
      cases i with
      | zero => simp [batch_analyze]
      | succ j => simpa [batch_analyze] using ih j
  · with_unfolding_all decide

/-- C6 counterexample: as stated over EVERY `maxKeywords`, the "at most
maxKeywords entries" bound fails for a negative bound, because the Python
slice `[:n]` with negative `n` drops elements from the end instead of
limiting the length: `extract_keywords "hello world" (-1)` returns one
keyword, and 1 ≰ -1. -/
theorem extract_keywords_negative_max_counterexample :
    extract_keywords "hello world" (-1) = ["hello"]
    ∧ ¬ (((extract_keywords "hello world" (-1)).length : ℤ) ≤ -1) := by
  with_unfolding_all decide

/-- C6 (amended: restricted to non-negative `maxKeywords`, which the claim's
universal quantification over all integers does not grant): for every text
and every `maxKeywords ≥ 0`, `extract_keywords` returns at most
`maxKeywords` strings, none of which is a stop word or has length ≤ 3,
ordered by descending frequency among the qualifying tokens of the cleaned
text with ties broken by first-occurrence order; empty input yields the
empty sequence. -/
theorem extract_keywords_spec (text : String) (k : ℤ) (hk : 0 ≤ k) :
    (extract_keywords text k).length ≤ k.toNat
    ∧ (∀ w ∈ extract_keywords text k,
        3 < w.length ∧ stop_words.contains w = false)
    ∧ (extract_keywords text k).Pairwise (fun u v =>
        (kwList text).count v < (kwList text).count u
        ∨ ((kwList text).count v = (kwList text).count u
            ∧ firstIdx u (kwList text) < firstIdx v (kwList text)))
    ∧ extract_keywords "" k = [] := by
  have hempty : extract_keywords "" k = [] := by
    unfold extract_keywords
    rw [if_pos rfl]
  by_cases ht : text = ""
  · subst ht
    rw [hempty]
    exact ⟨Nat.zero_le _, by simp, List.Pairwise.nil, rfl⟩
  · obtain ⟨h1, h2, h3, h4⟩ := word_freq_inv (kwList text)
    have hperm := sortByFreqDesc_perm (word_freq (kwList text))
    have hsub := pySlice_sublist (sortByFreqDesc (word_freq (kwList text))) k
    have hext : extract_keywords text k
        = (pySlice (sortByFreqDesc (word_freq (kwList text))) k).map
            (fun p => p.1) := by
      unfold extract_keywords
      rw [if_neg ht]
    refine ⟨?_, ?_, ?_, hempty⟩
    · rw [hext, List.length_map]
      have hslice : pySlice (sortByFreqDesc (word_freq (kwList text))) k
          = (sortByFreqDesc (word_freq (kwList text))).take k.toNat := by
        unfold pySlice
        rw [if_pos hk]
      rw [hslice, List.length_take]
      exact min_le_left _ _
    · intro w hw
      rw [hext] at hw
      obtain ⟨p, hp, rfl⟩ := List.mem_map.1 hw
      have hp3 : p ∈ word_freq (kwList text) := hperm.mem_iff.1 (hsub.subset hp)
      have hk1 : p.1 ∈ kwList text := (h1 p hp3).1
      obtain ⟨htok, hpred⟩ := List.mem_filter.1 hk1
      rw [Bool.and_eq_true] at hpred
      obtain ⟨hlen, hstop⟩ := hpred
      refine ⟨of_decide_eq_true hlen, ?_⟩
      rw [Bool.not_eq_true'] at hstop
      exact hstop
    · rw [hext]
      refine List.pairwise_map.2 (List.Pairwise.sublist hsub ?_)
      have hsorted := sortByFreqDesc_pairwise
        (fun p q => firstIdx p.1 (kwList text) < firstIdx q.1 (kwList text))
        (word_freq (kwList text)) h4
      refine hsorted.imp_of_mem ?_
      intro p q hp hq hT
      have hcp := (h1 p (hperm.mem_iff.1 hp)).2
      have hcq := (h1 q (hperm.mem_iff.1 hq)).2
      rcases hT with hT | ⟨he, hf⟩
      · exact Or.inl (by rw [← hcp, ← hcq]; exact hT)
      · exact Or.inr ⟨by rw [← hcp, ← hcq]; exact he, hf⟩

theorem extract_keywords_spec_witness :
    (0 : ℤ) ≤ 2
    ∧ ((extract_keywords "hello world" 2).length ≤ (2 : ℤ).toNat
      ∧ (∀ w ∈ extract_keywords "hello world" 2,
          3 < w.length ∧ stop_words.contains w = false)
      ∧ (extract_keywords "hello world" 2).Pairwise (fun u v =>
          (kwList "hello world").count v < (kwList "hello world").count u
          ∨ ((kwList "hello world").count v = (kwList "hello world").count u
              ∧ firstIdx u (kwList "hello world")
                  < firstIdx v (kwList "hello world")))
      ∧ extract_keywords "" 2 = []) :=
  ⟨by decide, extract_keywords_spec "hello world" 2 (by decide)⟩

/-- C10: the keyword list is duplicate-free and every returned keyword
occurs as a token of the cleaned (punctuation-stripped, lowercased) input
text. -/
theorem extract_keywords_nodup_mem (text : String) (k : ℤ) :
    (extract_keywords text k).Nodup
    ∧ ∀ w ∈ extract_keywords text k, w ∈ kwTokens text := by
  by_cases ht : text = ""
  · subst ht
    have hempty : extract_keywords "" k = [] := by
      unfold extract_keywords
      rw [if_pos rfl]
    rw [hempty]
    exact ⟨List.nodup_nil, by simp⟩
  · obtain ⟨h1, h2, h3, h4⟩ := word_freq_inv (kwList text)
    have hperm := sortByFreqDesc_perm (word_freq (kwList text))
    have hsub := pySlice_sublist (sortByFreqDesc (word_freq (kwList text))) k
    have hext : extract_keywords text k
        = (pySlice (sortByFreqDesc (word_freq (kwList text))) k).map
            (fun p => p.1) := by
      unfold extract_keywords
      rw [if_neg ht]
    constructor
    · rw [hext]
      have hkeys : ((word_freq (kwList text)).map (fun p => p.1)).Nodup := by
        show ((word_freq (kwList text)).map (fun p => p.1)).Pairwise _
        exact List.pairwise_map.2 h3
      have hsorted_nodup :
          ((sortByFreqDesc (word_freq (kwList text))).map (fun p => p.1)).Nodup :=
        ((hperm.map (fun p => p.1)).nodup_iff).2 hkeys
      exact hsorted_nodup.sublist (hsub.map (fun p => p.1))
    · intro w hw
      rw [hext] at hw
      obtain ⟨p, hp, rfl⟩ := List.mem_map.1 hw
      have hp3 : p ∈ word_freq (kwList text) := hperm.mem_iff.1 (hsub.subset hp)
      exact (List.mem_filter.1 ((h1 p hp3).1)).1

theorem extract_keywords_nodup_mem_witness :
    (extract_keywords "hello world" 10).Nodup
    ∧ ∀ w ∈ extract_keywords "hello world" 10, w ∈ kwTokens "hello world" :=
  extract_keywords_nodup_mem "hello world" 10

end Neilanx
